import Mathlib

/-!
Verification of the rctf interactive shell core against its specification.

The Lean definitions below are a shallow embedding of the Rust sources:
* `StableVec`       — src/session/stable_vec.rs (stable-index registry);
  the `BinaryHeap<Reverse<usize>>` of freed indices is modelled by the
  sorted list of its elements (pop = head = minimum, push = ordered insert).
* the line editor   — `get_next_line` in src/input.rs, modelled as a step
  function over an explicit editor state consuming a list of key events.
* variable expansion — `Context::expand` in src/input.rs; the pcre2 regex
  scan (with its two-characters-deep negative lookbehind) is modelled by the
  character-level state machine `scanText`, and the recursion is made total
  with a depth fuel (`none` = recursion depth exceeded).
* sessions          — `Context::handle_session` / `resume_session` in
  src/session.rs and the exit arm of `SshSession::start_read_loop` in
  src/ssh.rs, modelled as pure transition functions over a registry state;
  transport side effects (pty writes, prompt reset) are not modelled.
-/

namespace Rctf

/-! ## Stable-index registry (src/session/stable_vec.rs) -/

/-- Ordered insert into the sorted-list model of `BinaryHeap<Reverse<usize>>`. -/
def heapInsert (i : Nat) : List Nat → List Nat
  | [] => [i]
  | j :: rest => if i ≤ j then i :: j :: rest else j :: heapInsert i rest

structure StableVec (α : Type) where
  items : List (Option α)
  /-- `available_indices`, as the sorted list of the min-heap's elements. -/
  available : List Nat
deriving DecidableEq

def StableVec.new {α : Type} : StableVec α := ⟨[], []⟩

/-- `StableVec::next_index`: peek the heap, else `items.len()`. -/
def StableVec.next_index {α : Type} (sv : StableVec α) : Nat :=
  match sv.available with
  | i :: _ => i
  | [] => sv.items.length

/-- `StableVec::push`: pop the least freed index and fill that slot, else append. -/
def StableVec.push {α : Type} (sv : StableVec α) (item : α) : StableVec α × Nat :=
  match sv.available with
  | i :: rest => (⟨sv.items.set i (some item), rest⟩, i)
  | [] => (⟨sv.items ++ [some item], []⟩, sv.items.length)

/-- `StableVec::get`: `items.get(index).map(as_ref).flatten()`. -/
def StableVec.get {α : Type} (sv : StableVec α) (i : Nat) : Option α :=
  match sv.items[i]? with
  | none => none
  | some o => o

/-- `StableVec::remove`: `take` the slot's item (out-of-range or already-empty
slots yield `none` and leave the registry unchanged) and free the index. -/
def StableVec.remove {α : Type} (sv : StableVec α) (i : Nat) : StableVec α × Option α :=
  match sv.items[i]? with
  | some (some item) => (⟨sv.items.set i none, heapInsert i sv.available⟩, some item)
  | _ => (sv, none)

/-- Well-formedness maintained by every `push`/`remove` sequence: every freed
index is in range, its slot holds `none`, and the freed list is sorted without
duplicates (the heap never holds an index twice). -/
def StableVec.WF {α : Type} (sv : StableVec α) : Prop :=
  (∀ i ∈ sv.available, i < sv.items.length ∧ sv.items[i]? = some none) ∧
    sv.available.Pairwise (· < ·)

/-! ## Command history and the line editor (src/input.rs) -/

/-- `MAX_HISTORY_SIZE` (src/input.rs line 17). -/
def MAX_HISTORY_SIZE : Nat := 100

/-- The `while history.len() > MAX_HISTORY_SIZE { history.pop_front(); }` loop
after a commit (src/input.rs lines 285-287). -/
def trimHistory (h : List (List Char)) : List (List Char) :=
  if h.length > MAX_HISTORY_SIZE then trimHistory h.tail else h
termination_by h.length
decreasing_by
  simp only [List.length_tail]
  omega

/-- Key events relevant to `get_next_line`; `other` stands for every key the
`_ => {}` arm ignores. -/
inductive Key where
  | esc | enter | backspace | delete | up | down | left | right | ctrlC
  | char (c : Char)
  | other
deriving DecidableEq

/-- The local variables of `get_next_line` (src/input.rs lines 144-157).
`bufPtr` models the `cmd` reference: `none` when `cmd = &mut current_cmd`,
`some i` when `cmd = history_clone.get_mut(i).unwrap()`. -/
structure EditorState where
  history : List (List Char)
  historyClone : List (List Char)
  historyLen : Nat
  currentCmd : List Char
  bufPtr : Option Nat
  column : Nat
  historyIndex : Nat
deriving DecidableEq

/-- The buffer `cmd` currently points at. -/
def EditorState.buf (st : EditorState) : List Char :=
  match st.bufPtr with
  | none => st.currentCmd
  | some i => st.historyClone.getD i []

/-- Write back through the `cmd` reference. -/
def EditorState.setBuf (st : EditorState) (b : List Char) : EditorState :=
  match st.bufPtr with
  | none => { st with currentCmd := b }
  | some i => { st with historyClone := st.historyClone.set i b }

/-- Result of one input turn: `Ok(None)` on Ctrl-C, `Ok(Some s)` otherwise. -/
inductive EditOutcome where
  | interrupted
  | line (s : List Char)
deriving DecidableEq

/-- The commit path after the loop (src/input.rs lines 284-288):
push the buffer, evict from the front past capacity, return the buffer. -/
def commitLine (st : EditorState) : List (List Char) × EditOutcome :=
  (trimHistory (st.history ++ [st.buf]), .line st.buf)

inductive StepRes where
  | cont (st : EditorState)
  | finish (out : List (List Char) × EditOutcome)
deriving DecidableEq

/-- One iteration of the `get_next_line` event loop (src/input.rs 159-282). -/
def editorStep (st : EditorState) : Key → StepRes
  | .esc => .finish (st.history, .line "exit".data)
  | .enter => .finish (commitLine st)
  | .backspace =>
    if st.column = 0 then .cont st
    else
      let col := st.column - 1
      .cont ({ st.setBuf (st.buf.eraseIdx col) with column := col })
  | .delete =>
    if st.column = st.buf.length then .cont st
    else .cont (st.setBuf (st.buf.eraseIdx st.column))
  | .up =>
    if st.historyIndex = 0 then .cont st
    else
      let st1 := if st.historyIndex = st.historyLen
        then { st with currentCmd := st.buf } else st
      let i := st1.historyIndex - 1
      let b := st1.historyClone.getD i []
      .cont { st1 with historyIndex := i, bufPtr := some i, column := b.length }
  | .down =>
    if st.historyIndex = st.historyLen then .cont st
    else
      let i := st.historyIndex + 1
      if i = st.history.length then
        .cont { st with historyIndex := i, bufPtr := none,
                        column := st.currentCmd.length }
      else
        let b := st.historyClone.getD i []
        .cont { st with historyIndex := i, bufPtr := some i, column := b.length }
  | .left =>
    if st.column = 0 then .cont st else .cont { st with column := st.column - 1 }
  | .right =>
    if st.column = st.buf.length then .cont st
    else .cont { st with column := st.column + 1 }
  | .ctrlC => .finish (st.history, .interrupted)
  | .char c =>
    .cont ({ st.setBuf (st.buf.insertIdx st.column c) with column := st.column + 1 })
  | .other => .cont st

/-- Run the event loop on a list of key events; exhausting the stream breaks
out of the loop and commits, as the `else break` on `reader.next()` does. -/
def runEditor (st : EditorState) : List Key → List (List Char) × EditOutcome
  | [] => commitLine st
  | k :: rest =>
    match editorStep st k with
    | .cont st' => runEditor st' rest
    | .finish out => out

/-- The editor state at the top of `get_next_line` (src/input.rs 150-155). -/
def initEditor (h : List (List Char)) : EditorState :=
  ⟨h, h, h.length, [], none, 0, h.length⟩

/-- Typing a line and pressing Enter. -/
def typeLine (s : List Char) : List Key := s.map Key.char ++ [Key.enter]

/-- The history left behind by one committed line. -/
def commitRun (h : List (List Char)) (s : List Char) : List (List Char) :=
  (runEditor (initEditor h) (typeLine s)).1

/-! ## Variable expansion (`Context::expand`, src/input.rs lines 75-107) -/

/-- Left-to-right, non-overlapping replacement of the two-character pattern
`a b` by `rep`, as Rust's `str::replace` does for the two-byte patterns used
in `expand`. -/
def replace2 (a b : Char) (rep : List Char) : List Char → List Char
  | [] => []
  | [c] => [c]
  | c :: d :: rest =>
    if c = a ∧ d = b then rep ++ replace2 a b rep rest
    else c :: replace2 a b rep (d :: rest)

/-- Step (1) of `expand`: `.replace("\\n","\n").replace("\\r","\r").replace("\\t","\t")`. -/
def specialChars (input : List Char) : List Char :=
  replace2 '\\' 't' ['\t'] (replace2 '\\' 'r' ['\r'] (replace2 '\\' 'n' ['\n'] input))

/-- Step (3) of `expand`: `.replace("\\\\", "\\")`. -/
def collapseBackslashes (input : List Char) : List Char :=
  replace2 '\\' '\\' ['\\'] input

/-- `\w` of the pcre2 pattern (default, non-UTF mode): ASCII word characters. -/
def isWordChar (c : Char) : Bool :=
  c.isAlpha || c.isDigit || c = '_'

/-- The negative lookbehind `(?<!(?<!\\)\\)` of `VARIABLE_REGEX`: a match is
blocked exactly when the previous character is a backslash that is itself not
preceded by a backslash.  `p1`/`p2` are the characters one and two positions
before the match, `none` when off the start of the text. -/
def lookbehindOk (p2 p1 : Option Char) : Bool :=
  !(p1 = some '\\' && !(p2 = some '\\'))

/-- A maximal chunk of scanner output: a literal character copied through, or
a matched variable reference (capture group 1 or 2 of `VARIABLE_REGEX`). -/
inductive Piece where
  | lit (c : Char)
  | ref (name : String)
deriving DecidableEq

/-- Scanner state while walking the text: outside a match, after a matched
`#`, inside a `#name` (accumulated name), after `#` and an opening brace, or
inside a braced name waiting for the closing brace. -/
inductive ScanMode where
  | normal
  | afterHash
  | nameAcc (acc : List Char)
  | braceStart
  | braceAcc (acc : List Char)
deriving DecidableEq

/-- Handling of one character outside any candidate match: `#` with a passing
lookbehind opens a match attempt, anything else is copied through. -/
def normalHandle (p2 p1 : Option Char) (c : Char) : List Piece × ScanMode :=
  if c = '#' ∧ lookbehindOk p2 p1 then ([], .afterHash) else ([.lit c], .normal)

/-- Pieces emitted when the text ends in the middle of a match attempt: an
unfinished attempt was no match, its characters are literal text. -/
def flushMode : ScanMode → List Piece
  | .normal => []
  | .afterHash => [.lit '#']
  | .nameAcc acc => [.ref (String.mk acc)]
  | .braceStart => [.lit '#', .lit '\x7b']
  | .braceAcc acc => .lit '#' :: .lit '\x7b' :: acc.map .lit

/-- Character-level model of `VARIABLE_REGEX.captures_iter` over the text plus
the copy of unmatched stretches: `(?<!(?<!\\)\\)(?:#(name)|#\x7b(name)\x7d)`
with `name` a letter followed by word characters, alternatives tried in
order, leftmost matches, scanning resuming after each match.  `p2`/`p1` track
the two previously consumed characters for the lookbehind. -/
def scanText (p2 p1 : Option Char) (mode : ScanMode) : List Char → List Piece
  | [] => flushMode mode
  | c :: rest =>
    let step : List Piece × ScanMode :=
      match mode with
      | .normal => normalHandle p2 p1 c
      | .afterHash =>
        if c.isAlpha then ([], .nameAcc [c])
        else if c = '\x7b' then ([], .braceStart)
        else
          let s := normalHandle p2 p1 c
          (.lit '#' :: s.1, s.2)
      | .nameAcc acc =>
        if isWordChar c then ([], .nameAcc (acc ++ [c]))
        else
          let s := normalHandle p2 p1 c
          (.ref (String.mk acc) :: s.1, s.2)
      | .braceStart =>
        if c.isAlpha then ([], .braceAcc [c])
        else
          let s := normalHandle p2 p1 c
          (.lit '#' :: .lit '\x7b' :: s.1, s.2)
      | .braceAcc acc =>
        if c = '\x7d' then ([.ref (String.mk acc)], .normal)
        else if isWordChar c then ([], .braceAcc (acc ++ [c]))
        else
          let s := normalHandle p2 p1 c
          (.lit '#' :: .lit '\x7b' :: (acc.map .lit ++ s.1), s.2)
    step.1 ++ scanText p1 (some c) step.2 rest

/-- The variable store (`self.variables: HashMap<String, String>`), as an
association list with distinct keys. -/
def VarStore : Type := List (String × String)

/-- `HashMap::get`. -/
def lookupVar : VarStore → String → Option String
  | [], _ => none
  | (k, v) :: rest, name => if k = name then some v else lookupVar rest name

/-- The one failure `expand` reports: `bail!("Variable {name} is not defined.")`. -/
inductive ExpandErr where
  | undefinedVariable (name : String)
deriving DecidableEq

/-- Propagation of the `?` operator through one sub-result: a depth overrun
(`none`) and an error short-circuit, a success is passed on. -/
def thenPieces : Option (Except ExpandErr (List Char)) →
    (List Char → Option (Except ExpandErr (List Char))) →
    Option (Except ExpandErr (List Char))
  | none, _ => none
  | some (.error e), _ => some (.error e)
  | some (.ok out), f => f out

/-- Handling of one matched reference: an absent variable fails with
UndefinedVariable before anything else runs (`bail!`); otherwise the
recursively expanded value is prepended to the rest of the output. -/
def expandRef : Option String → String →
    (String → Option (Except ExpandErr (List Char))) →
    Option (Except ExpandErr (List Char)) → Option (Except ExpandErr (List Char))
  | none, name, _, _ => some (.error (.undefinedVariable name))
  | some v, _, recurRes, restRes =>
    thenPieces (recurRes v) fun ev =>
      thenPieces restRes fun out => some (.ok (ev ++ out))

/-- The loop over `captures_iter` (src/input.rs lines 89-102): literal pieces
are copied, each reference is looked up (failing on an absent variable) and
replaced by `recur` applied to the stored value — the recursive
`self.expand(value)?` — with errors propagating left to right. -/
def expandPieces (store : VarStore) (recur : String → Option (Except ExpandErr (List Char))) :
    List Piece → Option (Except ExpandErr (List Char))
  | [] => some (.ok [])
  | .lit c :: rest =>
    thenPieces (expandPieces store recur rest) fun out => some (.ok (c :: out))
  | .ref name :: rest =>
    expandRef (lookupVar store name) name recur (expandPieces store recur rest)

/-- `Context::expand`, with an explicit recursion-depth fuel standing in for
the unguarded Rust recursion: `none` means the depth bound was exceeded
(the Rust code recurses without bound on such inputs).  Steps, in order:
special characters, variable references (recursively expanded), collapse of
doubled backslashes. -/
def expandF (store : VarStore) : Nat → List Char → Option (Except ExpandErr (List Char))
  | 0, _ => none
  | n + 1, input =>
    thenPieces (expandPieces store (fun v => expandF store n v.data)
        (scanText none none .normal (specialChars input)))
      fun out => some (.ok (collapseBackslashes out))

/-- The variable names the scan of a text matches (each triggers a lookup and
a recursive expansion). -/
def matchedNames (s : List Char) : List String :=
  (scanText none none .normal s).filterMap fun p =>
    match p with
    | .ref n => some n
    | .lit _ => none

/-- `a` refers to `b`: `a` is defined and expanding its value looks up `b`. -/
def Refers (store : VarStore) (a b : String) : Prop :=
  ∃ v, lookupVar store a = some v ∧ b ∈ matchedNames (specialChars v.data)

/-- The store's reference graph is acyclic: no variable's value, transitively
expanded, refers back to that variable. -/
def AcyclicStore (store : VarStore) : Prop :=
  ∀ x, ¬ Relation.TransGen (Refers store) x x

/-! ## Sessions and orchestration (src/ssh.rs, src/session.rs) -/

/-- `Exit` (src/ssh.rs lines 34-38): what the transport reports when the
remote process terminates. -/
inductive ExitReason where
  | status (code : Nat)
  | signal (sig : String) (msg : String)
deriving DecidableEq

/-- `SessionExit` (src/session.rs lines 20-24). -/
inductive SessionExit where
  | termcraft
  | exit
deriving DecidableEq

/-- Errors the read loop's exit arm can produce: the channel being closed
without an exit status, or a nonzero status / signal carried in the error
(`break Err(anyhow!(exit))`). -/
inductive ReadErr where
  | noExitStatus
  | exited (e : ExitReason)
deriving DecidableEq

/-- The `rx_exit.recv()` arm of `SshSession::start_read_loop`
(src/ssh.rs lines 223-232): status 0 is the clean `SessionExit::Exit`,
anything else breaks the loop with an error carrying the exit reason. -/
def readLoopExitArm : Option ExitReason → Except ReadErr SessionExit
  | none => .error .noExitStatus
  | some (.status 0) => .ok .exit
  | some e => .error (.exited e)

/-- The observable registry-relevant state of one session: its display name
(empty = unnamed, src/ssh.rs `name()`) and whether its transport is connected. -/
structure SessionRec where
  name : String
  connected : Bool
deriving DecidableEq

/-- `SshSession::name`: `None` while the name is empty. -/
def sessionName (s : SessionRec) : Option String :=
  if s.name = "" then none else some s.name

/-- The fields of `Context` the orchestration loop touches: the session
registry and the name index (`named_sessions: HashMap<String, usize>`,
modelled as an association list with distinct keys). -/
structure OrchCtx where
  sessions : StableVec SessionRec
  namedSessions : List (String × Nat)
deriving DecidableEq

/-- `SessionSelection` (src/session.rs lines 26-30). -/
inductive Selection where
  | index (i : Nat)
  | name (n : String)
deriving DecidableEq

/-- The `bail!` errors of `resume_session` / `handle_session`. -/
inductive OrchErr where
  | indexNotFound (i : Nat)
  | noSessionNamed (n : String)
  | readErr (e : ReadErr)
deriving DecidableEq

/-- `TermcraftResponse` (src/termcraft.rs lines 10-14). -/
inductive TermcraftResponse where
  | cmd (text : String)
  | background
  | exitTermcraft
deriving DecidableEq

/-- Index resolution at the top of `resume_session` (src/session.rs 73-86).
For a name, the code takes `sessions.iter().flatten().position(..)`: the
position among the *live* sessions only, freed slots skipped by `flatten`. -/
def resolveSelection (ctx : OrchCtx) : Selection → Except OrchErr Nat
  | .index i => .ok i
  | .name n =>
    match (ctx.sessions.items.reduceOption.findIdx? fun s => sessionName s = some n) with
    | none => .error (.noSessionNamed n)
    | some i => .ok i

/-- How one iteration of the `handle_session` loop ends. -/
inductive LoopOut where
  | continueLoop (ctx : OrchCtx)
  | breakLoop (ctx : OrchCtx)
  | fail (e : OrchErr) (ctx : OrchCtx)
deriving DecidableEq

/-- One iteration of `Context::handle_session` (src/session.rs lines 94-144),
with the result of `start_read_loop` and the response of `start_termcraft`
supplied as oracles (their I/O is outside the model; termcraft mutations of
the context besides the returned response are not modelled).  The `?` on
`start_read_loop` propagates a read-loop error with the context untouched;
`SessionExit::Exit` disconnects the session, removes its slot and drops its
name from the name index before breaking. -/
def handleSessionIter (ctx : OrchCtx) (i : Nat) (readRes : Except ReadErr SessionExit)
    (tcRes : TermcraftResponse) : LoopOut :=
  match ctx.sessions.get i with
  | none => .fail (.indexNotFound i) ctx
  | some s =>
    match readRes with
    | .error e => .fail (.readErr e) ctx
    | .ok .termcraft =>
      match tcRes with
      | .cmd _ =>
        match ctx.sessions.get i with
        | none => .fail (.indexNotFound i) ctx
        | some _ => .continueLoop ctx
      | .background => .breakLoop ctx
      | .exitTermcraft =>
        match ctx.sessions.get i with
        | none => .fail (.indexNotFound i) ctx
        | some _ => .continueLoop ctx
    | .ok .exit =>
      let disconnected : SessionRec := { s with connected := false }
      let sv1 : StableVec SessionRec :=
        ⟨ctx.sessions.items.set i (some disconnected), ctx.sessions.available⟩
      let nm := sessionName disconnected
      let sv2 := (sv1.remove i).1
      let named' :=
        match nm with
        | some n => ctx.namedSessions.filter fun p => ¬(p.1 = n)
        | none => ctx.namedSessions
      .breakLoop ⟨sv2, named'⟩

/-! ## Helper lemmas: the freed-index heap model -/

theorem mem_heapInsert {i k : Nat} {l : List Nat} :
    k ∈ heapInsert i l ↔ k = i ∨ k ∈ l := by
  induction l with
  | nil => simp [heapInsert]
  | cons j rest ih =>
    by_cases h : i ≤ j
    · simp only [heapInsert, if_pos h, List.mem_cons]
    · simp only [heapInsert, if_neg h, List.mem_cons, ih]
      tauto

theorem pairwise_heapInsert {i : Nat} {l : List Nat}
    (hs : l.Pairwise (· < ·)) (hni : i ∉ l) :
    (heapInsert i l).Pairwise (· < ·) := by
  induction l with
  | nil => simp [heapInsert]
  | cons j rest ih =>
    rw [List.pairwise_cons] at hs
    by_cases h : i ≤ j
    · have hij : i ≠ j := by
        intro hE
        exact hni (hE ▸ List.mem_cons_self j rest)
      have hlt : i < j := lt_of_le_of_ne h hij
      simp only [heapInsert, if_pos h]
      rw [List.pairwise_cons]
      refine ⟨?_, List.pairwise_cons.mpr hs⟩
      intro b hb
      rcases List.mem_cons.mp hb with hbj | hbr
      · exact hbj ▸ hlt
      · exact lt_trans hlt (hs.1 b hbr)
    · have hni' : i ∉ rest := fun hmem => hni (List.mem_cons_of_mem j hmem)
      simp only [heapInsert, if_neg h]
      rw [List.pairwise_cons]
      refine ⟨?_, ih hs.2 hni'⟩
      intro b hb
      rcases mem_heapInsert.mp hb with hbi | hbr
      · omega
      · exact hs.1 b hbr

theorem stableVec_remove_get_none {α : Type} (sv : StableVec α) (i : Nat) :
    ((sv.remove i).1).get i = none := by
  rcases h : sv.items[i]? with _ | o
  · simp [StableVec.remove, h, StableVec.get]
  · rcases o with _ | item
    · simp [StableVec.remove, h, StableVec.get]
    · have hi : i < sv.items.length := by
        by_contra hge
        rw [List.getElem?_eq_none (by omega)] at h
        exact Option.noConfusion h
      simp [StableVec.remove, h, StableVec.get, List.getElem?_set_self hi]

/-- C1: starting from the empty stable-index registry, pushing A, B, C returns
indices 0, 1, 2; after `remove 1`, `push D` returns index 1 and `get 1` is D;
in general `push` returns the least currently freed index when any freed
indices exist and otherwise appends at the end, and `get` on a freed (removed)
index returns `none`. -/
theorem C1_registry_push_reuses_lowest :
    (let s0 : StableVec String := StableVec.new
     let p1 := s0.push "A"
     let p2 := p1.1.push "B"
     let p3 := p2.1.push "C"
     let r := p3.1.remove 1
     let p4 := r.1.push "D"
     p1.2 = 0 ∧ p2.2 = 1 ∧ p3.2 = 2 ∧
       p3.1.get 0 = some "A" ∧ p3.1.get 1 = some "B" ∧ p3.1.get 2 = some "C" ∧
       r.1.get 1 = none ∧ p4.2 = 1 ∧ p4.1.get 1 = some "D") ∧
    (∀ (α : Type) (sv : StableVec α) (x : α),
      sv.available.Pairwise (· < ·) →
      (sv.available ≠ [] →
        (sv.push x).2 ∈ sv.available ∧ ∀ j ∈ sv.available, (sv.push x).2 ≤ j) ∧
      (sv.available = [] →
        (sv.push x).2 = sv.items.length ∧
          (sv.push x).1.items = sv.items ++ [some x])) ∧
    (∀ (α : Type) (sv : StableVec α) (i : Nat), ((sv.remove i).1).get i = none) := by
  refine ⟨by decide, ?_, fun α sv i => stableVec_remove_get_none sv i⟩
  intro α sv x hsorted
  constructor
  · intro hne
    rcases ha : sv.available with _ | ⟨i, rest⟩
    · exact absurd ha hne
    · rw [ha] at hsorted
      rw [List.pairwise_cons] at hsorted
      constructor
      · simp [StableVec.push, ha]
      · intro j hj
        rcases List.mem_cons.mp hj with hji | hjr
        · simp [StableVec.push, ha, hji]
        · have := hsorted.1 j hjr
          simp [StableVec.push, ha]
          omega
  · intro hemp
    simp [StableVec.push, hemp]

theorem C1_registry_push_reuses_lowest_witness :
    ((⟨[some 5, none, some 7], [1]⟩ : StableVec Nat).push 9).2 ∈ [1] ∧
      (((⟨[some 5, none, some 7], [1]⟩ : StableVec Nat).push 9).2 ≤ 1) := by
  have h := C1_registry_push_reuses_lowest
  have h2 := (h.2.1 Nat ⟨[some 5, none, some 7], [1]⟩ 9 (by decide)).1 (by decide)
  exact ⟨h2.1, h2.2 1 (by decide)⟩

theorem stableVec_get_eq_some {α : Type} {sv : StableVec α} {j : Nat} {y : α} :
    sv.get j = some y ↔ sv.items[j]? = some (some y) := by
  unfold StableVec.get
  rcases h : sv.items[j]? with _ | o
  · simp
  · simp

/-- C4: for every sequence of push and remove operations on the registry
(captured by the inductive well-formedness `StableVec.WF`, which holds for the
empty registry and is preserved by both operations), a pushed item lands in a
slot that held no live item, is retrievable at the returned index, and every
live item is untouched by later pushes and by removals of other indices, so an
index is reused only after its occupant was removed. -/
theorem C4_registry_index_stability :
    ∀ (α : Type) (sv : StableVec α) (x : α), StableVec.WF sv →
      StableVec.WF (StableVec.new : StableVec α) ∧
      sv.get (sv.push x).2 = none ∧
      (sv.push x).1.get (sv.push x).2 = some x ∧
      (∀ j y, sv.get j = some y → j ≠ (sv.push x).2 ∧ (sv.push x).1.get j = some y) ∧
      StableVec.WF (sv.push x).1 ∧
      (∀ i, StableVec.WF (sv.remove i).1 ∧ ((sv.remove i).1).get i = none ∧
        (∀ j y, j ≠ i → sv.get j = some y → ((sv.remove i).1).get j = some y)) := by
  intro α sv x hwf
  obtain ⟨hslots, hsorted⟩ := hwf
  have hnew : StableVec.WF (StableVec.new : StableVec α) := by
    constructor
    · intro i hi
      simp [StableVec.new] at hi
    · simp [StableVec.new]
  refine ⟨hnew, ?_, ?_, ?_, ?_, ?_⟩
  · rcases ha : sv.available with _ | ⟨i, rest⟩
    · have : sv.items[sv.items.length]? = none := List.getElem?_eq_none (le_refl _)
      simp [StableVec.push, ha, StableVec.get, this]
    · have hi := hslots i (ha ▸ List.mem_cons_self i rest)
      simp [StableVec.push, ha, StableVec.get, hi.2]
  · rcases ha : sv.available with _ | ⟨i, rest⟩
    · simp [StableVec.push, ha, StableVec.get, List.getElem?_concat_length]
    · have hi := hslots i (ha ▸ List.mem_cons_self i rest)
      simp [StableVec.push, ha, StableVec.get, List.getElem?_set_self hi.1]
  · intro j y hj
    rw [stableVec_get_eq_some] at hj
    rcases ha : sv.available with _ | ⟨i, rest⟩
    · have hjlt : j < sv.items.length := by
        by_contra hge
        rw [List.getElem?_eq_none (by omega)] at hj
        exact Option.noConfusion hj
      have hne : j ≠ sv.items.length := by omega
      constructor
      · simpa [StableVec.push, ha] using hne
      · rw [stableVec_get_eq_some]
        simp only [StableVec.push, ha]
        rw [List.getElem?_append, if_pos hjlt]
        exact hj
    · have hi := hslots i (ha ▸ List.mem_cons_self i rest)
      have hne : j ≠ i := by
        intro hE
        rw [hE, hi.2] at hj
        simp at hj
      constructor
      · simpa [StableVec.push, ha] using hne
      · rw [stableVec_get_eq_some]
        simp only [StableVec.push, ha]
        rw [List.getElem?_set_ne (fun hE => hne hE.symm)]
        exact hj
  · rcases ha : sv.available with _ | ⟨i, rest⟩
    · constructor
      · intro k hk
        simp [StableVec.push, ha] at hk
      · simp [StableVec.push, ha]
    · rw [ha] at hsorted
      rw [List.pairwise_cons] at hsorted
      have hi := hslots i (ha ▸ List.mem_cons_self i rest)
      constructor
      · intro k hk
        simp only [StableVec.push, ha] at hk
        have hkr := hslots k (ha ▸ List.mem_cons_of_mem i hk)
        have hki : i ≠ k := fun hE => absurd (hE ▸ hsorted.1 k hk) (lt_irrefl i)
        constructor
        · simpa [StableVec.push, ha] using hkr.1
        · simp only [StableVec.push, ha]
          rw [List.getElem?_set_ne hki]
          exact hkr.2
      · simp only [StableVec.push, ha]
        exact hsorted.2
  · intro i
    rcases h : sv.items[i]? with _ | o
    · refine ⟨by simpa [StableVec.remove, h] using ⟨hslots, hsorted⟩,
        stableVec_remove_get_none sv i, ?_⟩
      intro j y _ hj
      simpa [StableVec.remove, h] using hj
    · rcases o with _ | item
      · refine ⟨by simpa [StableVec.remove, h] using ⟨hslots, hsorted⟩,
          stableVec_remove_get_none sv i, ?_⟩
        intro j y _ hj
        simpa [StableVec.remove, h] using hj
      · have hilt : i < sv.items.length := by
          by_contra hge
          rw [List.getElem?_eq_none (by omega)] at h
          exact Option.noConfusion h
        have hinotin : i ∉ sv.available := by
          intro hmem
          have := (hslots i hmem).2
          rw [this] at h
          simp at h
        refine ⟨⟨?_, ?_⟩, stableVec_remove_get_none sv i, ?_⟩
        · intro k hk
          simp only [StableVec.remove, h] at hk
          rcases mem_heapInsert.mp hk with hki | hkm
          · subst hki
            refine ⟨by simpa [StableVec.remove, h] using hilt, ?_⟩
            simp [StableVec.remove, h, List.getElem?_set_self hilt]
          · have hkr := hslots k hkm
            have hki : i ≠ k := fun hE => hinotin (hE ▸ hkm)
            refine ⟨by simpa [StableVec.remove, h] using hkr.1, ?_⟩
            simp only [StableVec.remove, h]
            rw [List.getElem?_set_ne hki]
            exact hkr.2
        · simp only [StableVec.remove, h]
          exact pairwise_heapInsert hsorted hinotin
        · intro j y hji hj
          rw [stableVec_get_eq_some] at hj
          rw [stableVec_get_eq_some]
          simp only [StableVec.remove, h]
          rw [List.getElem?_set_ne (fun hE => hji hE.symm)]
          exact hj

theorem C4_registry_index_stability_witness :
    ((⟨[some 1], []⟩ : StableVec Nat).push 2).1.get
        (((⟨[some 1], []⟩ : StableVec Nat).push 2).2) = some 2 :=
  (C4_registry_index_stability Nat ⟨[some 1], []⟩ 2
    (by constructor <;> simp [StableVec.WF])).2.2.1

/-! ## Line-editor theorems -/

theorem setBuf_history (st : EditorState) (b : List Char) :
    (st.setBuf b).history = st.history := by
  unfold EditorState.setBuf
  rcases st.bufPtr with _ | i <;> rfl

/-- C6: in the line editor, Escape ends the input turn at once with the
history untouched (the edited buffer is never committed) and the fixed result
line "exit", while Ctrl-C returns the distinct `interrupted` outcome. -/
theorem C6_escape_distinct_from_ctrl_c :
    ∀ (st : EditorState) (keys : List Key),
      runEditor st (Key.esc :: keys) = (st.history, .line "exit".data) ∧
      runEditor st (Key.ctrlC :: keys) = (st.history, .interrupted) ∧
      EditOutcome.line "exit".data ≠ EditOutcome.interrupted := by
  intro st keys
  exact ⟨rfl, rfl, by simp⟩

theorem editorStep_cont_history (st : EditorState) (k : Key) (st' : EditorState)
    (h : editorStep st k = .cont st') : st'.history = st.history := by
  cases k with
  | esc => simp [editorStep] at h
  | enter => simp [editorStep] at h
  | ctrlC => simp [editorStep] at h
  | backspace =>
    unfold editorStep at h
    by_cases hc : st.column = 0
    · rw [if_pos hc] at h
      cases h
      rfl
    · rw [if_neg hc] at h
      cases h
      exact setBuf_history st _
  | delete =>
    unfold editorStep at h
    by_cases hc : st.column = st.buf.length
    · rw [if_pos hc] at h
      cases h
      rfl
    · rw [if_neg hc] at h
      cases h
      exact setBuf_history st _
  | up =>
    unfold editorStep at h
    by_cases h0 : st.historyIndex = 0
    · rw [if_pos h0] at h
      cases h
      rfl
    · rw [if_neg h0] at h
      by_cases h1 : st.historyIndex = st.historyLen
      · rw [if_pos h1] at h
        cases h
        rfl
      · rw [if_neg h1] at h
        cases h
        rfl
  | down =>
    by_cases h0 : st.historyIndex = st.historyLen
    · simp only [editorStep, if_pos h0] at h
      cases h
      rfl
    · by_cases h1 : st.historyIndex + 1 = st.history.length
      · simp only [editorStep, if_neg h0, if_pos h1] at h
        cases h
        rfl
      · simp only [editorStep, if_neg h0, if_neg h1] at h
        cases h
        rfl
  | left =>
    by_cases hc : st.column = 0
    · simp only [editorStep, if_pos hc] at h
      cases h
      rfl
    · simp only [editorStep, if_neg hc] at h
      cases h
      rfl
  | right =>
    by_cases hc : st.column = st.buf.length
    · simp only [editorStep, if_pos hc] at h
      cases h
      rfl
    · simp only [editorStep, if_neg hc] at h
      cases h
      rfl
  | char c =>
    unfold editorStep at h
    cases h
    exact setBuf_history st _
  | other =>
    cases h
    rfl

/-- C10: aborting an input turn with Ctrl-C or leaving it with Escape hands
back the history exactly as it was, and no in-loop key event ever modifies the
history; only the Enter commit path appends the buffer (trimming from the
front past capacity). -/
theorem C10_history_frame :
    ∀ (st : EditorState) (keys : List Key),
      (runEditor st (Key.esc :: keys)).1 = st.history ∧
      (runEditor st (Key.ctrlC :: keys)).1 = st.history ∧
      (runEditor st (Key.enter :: keys)).1 = trimHistory (st.history ++ [st.buf]) ∧
      (∀ (k : Key) (st' : EditorState),
        editorStep st k = .cont st' → st'.history = st.history) := by
  intro st keys
  exact ⟨rfl, rfl, rfl, fun k st' h => editorStep_cont_history st k st' h⟩

theorem C10_history_frame_witness :
    (runEditor (initEditor [['a']]) [Key.esc]).1 = [['a']] ∧
      (initEditor [['a']]).history = [['a']] := by
  have h := C10_history_frame (initEditor [['a']]) []
  exact ⟨h.1, h.2.2.2 Key.left (initEditor [['a']]) (by decide)⟩

/-- C7 (counterexample): from the live line with buffer "ab" and cursor
column 0 over history ["x"], Up then Down restores the buffer but sets the
column to 2, not to the pre-navigation column 0. -/
theorem C7_up_down_column_counterexample :
    editorStep ⟨[['x']], [['x']], 1, ['a', 'b'], none, 0, 1⟩ .up =
      .cont ⟨[['x']], [['x']], 1, ['a', 'b'], some 0, 1, 0⟩ ∧
    editorStep ⟨[['x']], [['x']], 1, ['a', 'b'], some 0, 1, 0⟩ .down =
      .cont ⟨[['x']], [['x']], 1, ['a', 'b'], none, 2, 1⟩ ∧
    (⟨[['x']], [['x']], 1, ['a', 'b'], none, 2, 1⟩ : EditorState).column ≠
      (⟨[['x']], [['x']], 1, ['a', 'b'], none, 0, 1⟩ : EditorState).column := by
  decide

/-- C7 (amended): from the live line with any buffer and cursor column, Up
once then Down once restores exactly the pre-navigation buffer, but places the
cursor at the end of that buffer — which equals the pre-navigation column only
when the cursor was at the end of the line (with empty history both keys are
no-ops, so buffer and column are trivially preserved). -/
theorem C7_up_down_restores_buffer :
    ∀ (h hc : List (List Char)) (B : List Char) (c : Nat), h.length = hc.length →
      (hc = [] →
        editorStep ⟨h, hc, hc.length, B, none, c, hc.length⟩ .up =
          .cont ⟨h, hc, hc.length, B, none, c, hc.length⟩ ∧
        editorStep ⟨h, hc, hc.length, B, none, c, hc.length⟩ .down =
          .cont ⟨h, hc, hc.length, B, none, c, hc.length⟩) ∧
      (hc ≠ [] →
        ∃ st1 st2,
          editorStep ⟨h, hc, hc.length, B, none, c, hc.length⟩ .up = .cont st1 ∧
          editorStep st1 .down = .cont st2 ∧
          st2.buf = B ∧ st2.bufPtr = none ∧ st2.column = B.length ∧
          st2.historyIndex = hc.length ∧ st2.history = h ∧ st2.historyClone = hc ∧
          (c = B.length → st2.column = c)) := by
  intro h hc B c hlen
  constructor
  · intro hE
    subst hE
    exact ⟨rfl, rfl⟩
  · intro hne
    rcases hc with _ | ⟨e, hc'⟩
    · exact absurd rfl hne
    · simp only [List.length_cons] at hlen
      refine ⟨⟨h, e :: hc', hc'.length + 1, B, some hc'.length,
          ((e :: hc').getD hc'.length []).length, hc'.length⟩,
        ⟨h, e :: hc', hc'.length + 1, B, none, B.length, hc'.length + 1⟩,
        ?_, ?_, rfl, rfl, rfl, rfl, rfl, rfl, fun hcB => hcB.symm⟩
      · simp [editorStep, EditorState.buf]
      · simp [editorStep, hlen]

theorem C7_up_down_restores_buffer_witness :
    ∃ st1 st2,
      editorStep ⟨[['x']], [['x']], 1, ['a', 'b'], none, 2, 1⟩ .up = .cont st1 ∧
      editorStep st1 .down = .cont st2 ∧
      st2.buf = ['a', 'b'] ∧ st2.bufPtr = none ∧ st2.column = ['a', 'b'].length ∧
      st2.historyIndex = 1 ∧ st2.history = [['x']] ∧ st2.historyClone = [['x']] ∧
      (2 = ['a', 'b'].length → st2.column = 2) :=
  (C7_up_down_restores_buffer [['x']] [['x']] ['a', 'b'] 2 rfl).2 (by decide)

theorem trimHistory_eq_drop (h : List (List Char)) :
    trimHistory h = h.drop (h.length - MAX_HISTORY_SIZE) := by
  rw [trimHistory]
  split
  · rename_i hl
    rw [trimHistory_eq_drop h.tail]
    rcases h with _ | ⟨a, t⟩
    · simp at hl
    · simp only [List.tail_cons, List.length_cons]
      have hge : MAX_HISTORY_SIZE ≤ t.length := by
        simp only [List.length_cons] at hl
        omega
      rw [show t.length + 1 - MAX_HISTORY_SIZE = (t.length - MAX_HISTORY_SIZE) + 1 by omega]
      rw [List.drop_succ_cons]
  · rename_i hl
    rw [Nat.sub_eq_zero_of_le (by omega), List.drop_zero]
termination_by h.length
decreasing_by
  simp only [List.length_tail]
  omega

theorem runEditor_type_from (hist : List (List Char)) :
    ∀ (cs p : List Char),
      runEditor ⟨hist, hist, hist.length, p, none, p.length, hist.length⟩
          (cs.map Key.char ++ [Key.enter]) =
        (trimHistory (hist ++ [p ++ cs]), .line (p ++ cs)) := by
  intro cs
  induction cs with
  | nil =>
    intro p
    simp [runEditor, editorStep, commitLine, EditorState.buf]
  | cons c cs ih =>
    intro p
    simp only [List.map_cons, List.cons_append, runEditor, editorStep,
      EditorState.buf, EditorState.setBuf]
    rw [List.insertIdx_length_self]
    have := ih (p ++ [c])
    simp only [List.length_append, List.length_cons, List.length_nil] at this
    rw [show p.length + 1 = p.length + (0 + 1) by omega] at this
    simpa [List.append_assoc] using this

set_option maxRecDepth 4000 in
/-- C3: committed lines form a bounded FIFO history of capacity 100: starting
from the empty history, committing the lines in order leaves exactly the most
recent 100 of them, oldest evicted from the front first (all of them when
fewer than 100 were committed). -/
theorem C3_history_capacity_fifo :
    ∀ lines : List (List Char),
      lines.foldl commitRun [] = lines.drop (lines.length - MAX_HISTORY_SIZE) ∧
      (lines.foldl commitRun []).length = min lines.length MAX_HISTORY_SIZE := by
  have hcommit : ∀ (acc : List (List Char)) (l : List Char),
      commitRun acc l = (acc ++ [l]).drop ((acc ++ [l]).length - MAX_HISTORY_SIZE) := by
    intro acc l
    have h0 : (0 : Nat) = List.length ([] : List Char) := rfl
    unfold commitRun initEditor typeLine
    rw [show (⟨acc, acc, acc.length, [], none, 0, acc.length⟩ : EditorState) =
        ⟨acc, acc, acc.length, [], none, List.length ([] : List Char), acc.length⟩ from rfl]
    rw [runEditor_type_from acc l []]
    simp [trimHistory_eq_drop]
  have main : ∀ (lines acc : List (List Char)), acc.length ≤ MAX_HISTORY_SIZE →
      lines.foldl commitRun acc =
        (acc ++ lines).drop ((acc ++ lines).length - MAX_HISTORY_SIZE) := by
    intro lines
    induction lines with
    | nil =>
      intro acc hacc
      simp only [List.foldl_nil, List.append_nil]
      rw [Nat.sub_eq_zero_of_le hacc, List.drop_zero]
    | cons l ls ih =>
      intro acc hacc
      rw [List.foldl_cons, hcommit acc l,
        ih _ (by rw [List.length_drop]; omega)]
      have hD : (acc ++ [l]).length - MAX_HISTORY_SIZE ≤ (acc ++ [l]).length := by
        omega
      rw [← List.drop_append_of_le_length hD, List.drop_drop,
        List.append_assoc, List.singleton_append]
      congr 1
      simp only [List.length_drop, List.length_append, List.length_cons,
        List.length_nil]
      omega
  intro lines
  have h := main lines [] (by simp [MAX_HISTORY_SIZE])
  simp only [List.nil_append] at h
  refine ⟨h, ?_⟩
  rw [h, List.length_drop]
  omega

/-! ## Session lifecycle theorems -/

/-- C5 (counterexample): with a connected session at index 0, a nonzero exit
status is reported as an error, but the orchestration loop then propagates the
error with the registry unchanged: the session is NOT removed (its slot is
still occupied afterwards), contrary to the claim that removal happens in
either case. -/
theorem C5_nonzero_exit_no_removal_counterexample :
    readLoopExitArm (some (.status 1)) = .error (.exited (.status 1)) ∧
    handleSessionIter ⟨⟨[some ⟨"s", true⟩], []⟩, [("s", 0)]⟩ 0
        (.error (.exited (.status 1))) .background =
      .fail (.readErr (.exited (.status 1))) ⟨⟨[some ⟨"s", true⟩], []⟩, [("s", 0)]⟩ ∧
    (⟨⟨[some ⟨"s", true⟩], []⟩, [("s", 0)]⟩ : OrchCtx).sessions.get 0 =
      some ⟨"s", true⟩ := by
  exact ⟨rfl, rfl, rfl⟩

/-- C5 (amended): the read loop returns the clean RemoteExited outcome exactly
on exit status 0, and reports a nonzero status or a signal as an error
carrying it.  On the clean outcome the orchestration loop disconnects the
session, removes it from the registry and from the name index, after which
driving that index fails with index-not-found; on the error outcome the loop
propagates the error with the registry unchanged — the session is removed only
on the clean path. -/
theorem C5_exit_status_paths :
    readLoopExitArm (some (.status 0)) = .ok .exit ∧
    (∀ c : Nat, c ≠ 0 →
      readLoopExitArm (some (.status c)) = .error (.exited (.status c))) ∧
    (∀ sig msg : String,
      readLoopExitArm (some (.signal sig msg)) = .error (.exited (.signal sig msg))) ∧
    (∀ (ctx : OrchCtx) (i : Nat) (s : SessionRec) (tc : TermcraftResponse),
      ctx.sessions.get i = some s →
      (∀ e, handleSessionIter ctx i (.error e) tc = .fail (.readErr e) ctx) ∧
      resolveSelection ctx (.index i) = .ok i ∧
      ∃ ctx', handleSessionIter ctx i (.ok .exit) tc = .breakLoop ctx' ∧
        ctx'.sessions.get i = none ∧
        (∀ rr tc', handleSessionIter ctx' i rr tc' = .fail (.indexNotFound i) ctx') ∧
        (∀ n, sessionName s = some n → ∀ j, (n, j) ∉ ctx'.namedSessions)) := by
  refine ⟨rfl, ?_, fun sig msg => rfl, ?_⟩
  · intro c hc
    rcases c with _ | c'
    · exact absurd rfl hc
    · rfl
  · intro ctx i s tc h
    refine ⟨?_, rfl, ?_⟩
    · intro e
      simp only [handleSessionIter, h]
    · by_cases hname : s.name = ""
      · refine ⟨⟨(StableVec.remove
            ⟨ctx.sessions.items.set i (some { s with connected := false }),
              ctx.sessions.available⟩ i).1, ctx.namedSessions⟩, ?_, ?_, ?_, ?_⟩
        · simp only [handleSessionIter, h, sessionName, if_pos hname]
        · exact stableVec_remove_get_none _ i
        · intro rr tc'
          have hg := stableVec_remove_get_none
            (⟨ctx.sessions.items.set i (some { s with connected := false }),
              ctx.sessions.available⟩ : StableVec SessionRec) i
          simp only [handleSessionIter, hg]
        · intro n hn j
          simp [sessionName, hname] at hn
      · refine ⟨⟨(StableVec.remove
            ⟨ctx.sessions.items.set i (some { s with connected := false }),
              ctx.sessions.available⟩ i).1,
            ctx.namedSessions.filter fun p => ¬(p.1 = s.name)⟩, ?_, ?_, ?_, ?_⟩
        · simp only [handleSessionIter, h, sessionName, if_neg hname]
        · exact stableVec_remove_get_none _ i
        · intro rr tc'
          have hg := stableVec_remove_get_none
            (⟨ctx.sessions.items.set i (some { s with connected := false }),
              ctx.sessions.available⟩ : StableVec SessionRec) i
          simp only [handleSessionIter, hg]
        · intro n hn j hj
          have hns : n = s.name := by
            simp only [sessionName, if_neg hname, Option.some.injEq] at hn
            exact hn.symm
          rw [List.mem_filter] at hj
          subst hns
          simp at hj

theorem C5_exit_status_paths_witness :
    readLoopExitArm (some (.status 1)) = .error (.exited (.status 1)) ∧
    handleSessionIter ⟨⟨[some ⟨"n", true⟩], []⟩, [("n", 0)]⟩ 0
        (.error .noExitStatus) .background =
      .fail (.readErr .noExitStatus) ⟨⟨[some ⟨"n", true⟩], []⟩, [("n", 0)]⟩ := by
  have h := C5_exit_status_paths
  exact ⟨h.2.1 1 (by decide),
    (h.2.2.2 ⟨⟨[some ⟨"n", true⟩], []⟩, [("n", 0)]⟩ 0 ⟨"n", true⟩ .background
      (by decide)).1 .noExitStatus⟩

/-- C8: with a freed slot at index 0 and the live session named "n" at stable
index 1 (the name index records index 1), `resume_session(Name "n")` resolves
the name to 0 — the position among live sessions, not the stable index —
and driving index 0 then fails with index-not-found, while the named session
is in fact live and drivable at index 1. -/
theorem C8_resume_by_name_wrong_index :
    resolveSelection ⟨⟨[none, some ⟨"n", true⟩], [0]⟩, [("n", 1)]⟩ (.name "n") =
      .ok 0 ∧
    (⟨⟨[none, some ⟨"n", true⟩], [0]⟩, [("n", 1)]⟩ : OrchCtx).sessions.get 1 =
      some ⟨"n", true⟩ ∧
    ("n", 1) ∈ (⟨⟨[none, some ⟨"n", true⟩], [0]⟩, [("n", 1)]⟩ : OrchCtx).namedSessions ∧
    (∀ rr tc, handleSessionIter ⟨⟨[none, some ⟨"n", true⟩], [0]⟩, [("n", 1)]⟩ 0 rr tc =
      .fail (.indexNotFound 0) ⟨⟨[none, some ⟨"n", true⟩], [0]⟩, [("n", 1)]⟩) ∧
    (∀ tc, handleSessionIter ⟨⟨[none, some ⟨"n", true⟩], [0]⟩, [("n", 1)]⟩ 1
      (.ok .termcraft) tc ≠
        .fail (.indexNotFound 1) ⟨⟨[none, some ⟨"n", true⟩], [0]⟩, [("n", 1)]⟩) := by
  refine ⟨rfl, rfl, by decide, fun rr tc => rfl, ?_⟩
  intro tc
  cases tc <;> exact fun hE => LoopOut.noConfusion hE

/-! ## Variable-expansion theorems -/

/-- C2: evaluation of `expand` at the claim's own escaped-reference example.
With store x = "1", expanding the five characters backslash, hash, open brace,
x, close brace returns that text unchanged: the escaped reference is skipped
by the scan, but the escaping backslash is retained (only doubled backslashes
are collapsed), so the output is NOT the literal hash, open brace, x, close
brace promised by the claim and by the code's own escape table (`\#` hashtag).
The claim's other examples do hold as stated. -/
theorem C2_escaped_reference_keeps_backslash :
    expandF [("x", "1")] 1 ['\\', '#', '\x7b', 'x', '\x7d'] =
      some (.ok ['\\', '#', '\x7b', 'x', '\x7d']) ∧
    ¬ expandF [("x", "1")] 1 ['\\', '#', '\x7b', 'x', '\x7d'] =
      some (.ok ['#', '\x7b', 'x', '\x7d']) ∧
    expandF [("x", "1")] 2 ['#', '\x7b', 'x', '\x7d'] = some (.ok ['1']) ∧
    expandF [("x", "1")] 2 ['#', 'm', 'i', 's', 's', 'i', 'n', 'g'] =
      some (.error (.undefinedVariable "missing")) ∧
    expandF [("x", "1")] 1 ['a', '\\', '\\', '\\', '\\', 'b'] =
      some (.ok ['a', '\\', '\\', 'b']) := by
  refine ⟨rfl, ?_, rfl, rfl, rfl⟩
  intro hE
  have := Option.some.inj hE
  have h2 := congrArg (fun r => match r with | .ok l => l.length | .error _ => 0) this
  exact absurd h2 (by decide)

theorem expandPieces_mono (store : VarStore)
    (r r' : String → Option (Except ExpandErr (List Char)))
    (hrr : ∀ v res, r v = some res → r' v = some res) :
    ∀ ps res, expandPieces store r ps = some res → expandPieces store r' ps = some res := by
  intro ps
  induction ps with
  | nil => intro res h; exact h
  | cons p rest ih =>
    intro res h
    cases p with
    | lit c =>
      simp only [expandPieces] at h ⊢
      cases hrest : expandPieces store r rest with
      | none =>
        rw [hrest] at h
        simp only [thenPieces] at h
        exact Option.noConfusion h
      | some res' =>
        rw [hrest] at h
        rw [ih res' hrest]
        exact h
    | ref name =>
      simp only [expandPieces] at h ⊢
      cases hlk : lookupVar store name with
      | none =>
        rw [hlk] at h
        simp only [expandRef] at h ⊢
        exact h
      | some v =>
        rw [hlk] at h
        simp only [expandRef] at h ⊢
        cases hrv : r v with
        | none =>
          rw [hrv] at h
          simp only [thenPieces] at h
          exact Option.noConfusion h
        | some resv =>
          rw [hrv] at h
          rw [hrr v resv hrv]
          cases resv with
          | error e => exact h
          | ok ev =>
            simp only [thenPieces] at h ⊢
            cases hrest : expandPieces store r rest with
            | none =>
              rw [hrest] at h
              simp only [thenPieces] at h
              exact Option.noConfusion h
            | some res' =>
              rw [hrest] at h
              rw [ih res' hrest]
              exact h

theorem expandF_mono (store : VarStore) :
    ∀ n input res, expandF store n input = some res →
      expandF store (n + 1) input = some res := by
  intro n
  induction n with
  | zero =>
    intro input res h
    simp [expandF] at h
  | succ n ih =>
    intro input res h
    simp only [expandF] at h
    rw [show expandF store (n + 1 + 1) input =
        thenPieces (expandPieces store (fun v => expandF store (n + 1) v.data)
          (scanText none none .normal (specialChars input)))
        (fun out => some (.ok (collapseBackslashes out))) from rfl]
    have hmono := expandPieces_mono store (fun v => expandF store n v.data)
      (fun v => expandF store (n + 1) v.data) (fun v r hr => ih v.data r hr)
    cases hp : expandPieces store (fun v => expandF store n v.data)
        (scanText none none .normal (specialChars input)) with
    | none =>
      rw [hp] at h
      simp only [thenPieces] at h
      exact Option.noConfusion h
    | some res' =>
      rw [hp] at h
      rw [hmono _ res' hp]
      exact h

theorem expandF_mono_le (store : VarStore) {n m : Nat} (hnm : n ≤ m) :
    ∀ input res, expandF store n input = some res → expandF store m input = some res := by
  induction m, hnm using Nat.le_induction with
  | base => exact fun input res h => h
  | succ m _ ih => exact fun input res h => expandF_mono store m input res (ih input res h)

theorem expandF_isSome_mono (store : VarStore) {n m : Nat} (hnm : n ≤ m)
    (input : List Char) (h : (expandF store n input).isSome = true) :
    (expandF store m input).isSome = true := by
  rw [Option.isSome_iff_exists] at h
  obtain ⟨res, hres⟩ := h
  rw [Option.isSome_iff_exists]
  exact ⟨res, expandF_mono_le store hnm input res hres⟩

theorem expandPieces_isSome (store : VarStore)
    (r : String → Option (Except ExpandErr (List Char))) :
    ∀ ps : List Piece,
      (∀ name, Piece.ref name ∈ ps → ∀ v, lookupVar store name = some v →
        (r v).isSome = true) →
      (expandPieces store r ps).isSome = true := by
  intro ps
  induction ps with
  | nil => intro _; simp [expandPieces]
  | cons p rest ih =>
    intro h
    have hrest := ih fun name hm v hv => h name (List.mem_cons_of_mem _ hm) v hv
    cases p with
    | lit c =>
      simp only [expandPieces]
      cases hrp : expandPieces store r rest with
      | none =>
        rw [hrp] at hrest
        simp at hrest
      | some res => cases res <;> simp [thenPieces]
    | ref name =>
      simp only [expandPieces]
      cases hlk : lookupVar store name with
      | none => simp [expandRef]
      | some v =>
        have hr := h name (List.mem_cons_self _ _) v hlk
        simp only [expandRef]
        cases hrv : r v with
        | none =>
          rw [hrv] at hr
          simp at hr
        | some resv =>
          cases resv with
          | error e => simp [thenPieces]
          | ok ev =>
            simp only [thenPieces]
            cases hrp : expandPieces store r rest with
            | none =>
              rw [hrp] at hrest
              simp at hrest
            | some res => cases res <;> simp [thenPieces]

theorem expandF_succ_isSome (store : VarStore) (n : Nat) (input : List Char)
    (h : ∀ name ∈ matchedNames (specialChars input), ∀ v,
      lookupVar store name = some v → (expandF store n v.data).isSome = true) :
    (expandF store (n + 1) input).isSome = true := by
  have hps : ∀ name,
      Piece.ref name ∈ scanText none none .normal (specialChars input) → ∀ v,
        lookupVar store name = some v →
        ((fun v : String => expandF store n v.data) v).isSome = true := by
    intro name hm v hv
    refine h name ?_ v hv
    unfold matchedNames
    rw [List.mem_filterMap]
    exact ⟨.ref name, hm, rfl⟩
  have hsome := expandPieces_isSome store _ _ hps
  simp only [expandF]
  cases hp : expandPieces store (fun v => expandF store n v.data)
      (scanText none none .normal (specialChars input)) with
  | none =>
    rw [hp] at hsome
    simp at hsome
  | some res => cases res <;> simp [thenPieces]

theorem exists_uniform_fuel (store : VarStore) :
    ∀ names : List String,
      (∀ name ∈ names, ∀ v, lookupVar store name = some v →
        ∃ n, (expandF store n v.data).isSome = true) →
      ∃ N, ∀ name ∈ names, ∀ v, lookupVar store name = some v →
        (expandF store N v.data).isSome = true := by
  intro names
  induction names with
  | nil => exact fun _ => ⟨0, by simp⟩
  | cons nm rest ih =>
    intro h
    obtain ⟨N1, hN1⟩ := ih fun a ha v hv => h a (List.mem_cons_of_mem _ ha) v hv
    rcases hlk : lookupVar store nm with _ | v0
    · refine ⟨N1, ?_⟩
      intro a ha v hv
      rcases List.mem_cons.mp ha with hE | hr
      · subst hE
        rw [hlk] at hv
        cases hv
      · exact hN1 a hr v hv
    · obtain ⟨N2, hN2⟩ := h nm (List.mem_cons_self _ _) v0 hlk
      refine ⟨max N1 N2, ?_⟩
      intro a ha v hv
      rcases List.mem_cons.mp ha with hE | hr
      · subst hE
        rw [hlk] at hv
        cases hv
        exact expandF_isSome_mono store (le_max_right _ _) _ hN2
      · exact expandF_isSome_mono store (le_max_left _ _) _ (hN1 a hr v hv)

theorem lookupVar_mem_keys {store : VarStore} {name v : String}
    (h : lookupVar store name = some v) : name ∈ store.map Prod.fst := by
  induction store with
  | nil => cases h
  | cons kv rest ih =>
    rcases kv with ⟨k, w⟩
    simp only [lookupVar] at h
    by_cases hk : k = name
    · simp [hk]
    · rw [if_neg hk] at h
      simp only [List.map_cons, List.mem_cons]
      exact Or.inr (ih h)

/-- C9: if the store's reference graph is acyclic — no variable's value,
transitively expanded, refers back to that variable — expansion terminates on
every input (some recursion depth suffices); and without that precondition it
is not total: for the self-referential store x = "#x", expanding "#x" exceeds
every depth bound, i.e. the unguarded Rust recursion never returns. -/
theorem C9_expansion_termination :
    ∀ store : VarStore, AcyclicStore store →
      (∀ input : List Char, ∃ n, (expandF store n input).isSome = true) ∧
      (∀ n, expandF [("x", "#x")] n ['#', 'x'] = none) := by
  intro store hacyc
  constructor
  · have hwf : WellFounded
        (fun (b a : {x // x ∈ (store.map Prod.fst).toFinset}) =>
          Relation.TransGen (Refers store) a.1 b.1) := by
      haveI : IsTrans {x // x ∈ (store.map Prod.fst).toFinset}
          (fun b a => Relation.TransGen (Refers store) a.1 b.1) :=
        ⟨fun _ _ _ hxy hyz => Relation.TransGen.trans hyz hxy⟩
      haveI : IsIrrefl {x // x ∈ (store.map Prod.fst).toFinset}
          (fun b a => Relation.TransGen (Refers store) a.1 b.1) :=
        ⟨fun x hx => hacyc x.1 hx⟩
      exact Finite.wellFounded_of_trans_of_irrefl _
    have key : ∀ a : {x // x ∈ (store.map Prod.fst).toFinset}, ∀ v,
        lookupVar store a.1 = some v → ∃ n, (expandF store n v.data).isSome = true := by
      intro a
      induction a using hwf.induction with
      | _ x IH =>
        intro v hv
        have hnames : ∀ name ∈ matchedNames (specialChars v.data), ∀ w,
            lookupVar store name = some w →
            ∃ n, (expandF store n w.data).isSome = true := by
          intro name hmem w hw
          have hmemS : name ∈ (store.map Prod.fst).toFinset :=
            List.mem_toFinset.mpr (lookupVar_mem_keys hw)
          exact IH ⟨name, hmemS⟩
            (Relation.TransGen.single ⟨v, hv, hmem⟩) w hw
        obtain ⟨N, hN⟩ := exists_uniform_fuel store _ hnames
        exact ⟨N + 1, expandF_succ_isSome store N v.data hN⟩
    intro input
    have hnames : ∀ name ∈ matchedNames (specialChars input), ∀ w,
        lookupVar store name = some w →
        ∃ n, (expandF store n w.data).isSome = true := by
      intro name hmem w hw
      have hmemS : name ∈ (store.map Prod.fst).toFinset :=
        List.mem_toFinset.mpr (lookupVar_mem_keys hw)
      exact key ⟨name, hmemS⟩ w hw
    obtain ⟨N, hN⟩ := exists_uniform_fuel store _ hnames
    exact ⟨N + 1, expandF_succ_isSome store N input hN⟩
  · intro n
    induction n with
    | zero => rfl
    | succ n ih =>
      simp only [expandF]
      rw [show scanText none none .normal (specialChars ['#', 'x']) = [.ref "x"]
        from rfl]
      simp only [expandPieces]
      rw [show lookupVar [("x", "#x")] "x" = some "#x" from rfl]
      simp only [expandRef]
      rw [ih]
      rfl

theorem C9_expansion_termination_witness :
    (∃ n, (expandF [("x", "1")] n ['#', 'x']).isSome = true) ∧
    expandF [("x", "#x")] 3 ['#', 'x'] = none := by
  have hnoref : ∀ a b, ¬ Refers [("x", "1")] a b := by
    rintro a b ⟨v, hl, hm⟩
    by_cases ha : ("x" : String) = a
    · simp only [lookupVar, if_pos ha] at hl
      cases hl
      rw [show matchedNames (specialChars ("1" : String).data) = [] from rfl] at hm
      exact absurd hm (List.not_mem_nil b)
    · simp only [lookupVar, if_neg ha] at hl
      cases hl
  have hac : AcyclicStore [("x", "1")] := by
    intro x hx
    cases hx with
    | single h => exact hnoref _ _ h
    | tail _ h => exact hnoref _ _ h
  have h := C9_expansion_termination [("x", "1")] hac
  exact ⟨h.1 ['#', 'x'], h.2 3⟩

end Rctf
